import Mathlib

/-!
Shallow embedding of the Distributed-Cache repository.

Part 1: the consistent-hash ring (package `consistenthash`, file
`src/unnamed/part_000`).  The Go `Map` carries a pluggable hash function
`Hash = func([]byte) uint32`; we model it as `String → Nat` (the code only
ever applies it to string-derived byte slices, and the conversion
`string → []byte` is injective).  The Go field `hashMap : map[int]string`
is modelled as a total function `Nat → String` whose default value is `""`:
the code never distinguishes an absent key from one mapped to `""`
(it only uses plain indexing, which yields the zero value `""`, and
`delete`, which restores it).
-/

namespace consistenthash

/-- Go `sort.Search(n, f)` / `sort.SearchInts(keys, x)`, modelled by the
documented stdlib contract: the smallest index `i` with `keys[i] ≥ x`, or
`len keys` when there is none.  The Go implementation is a binary search,
which returns exactly this index whenever the predicate is monotone, i.e.
whenever `keys` is sorted — as it is in every reachable `Map` state. -/
def search (keys : List Nat) (x : Nat) : Nat :=
  match keys with
  | [] => 0
  | k :: rest => if x ≤ k then 0 else search rest x + 1

/-- The state of `consistenthash.Map`: hash function, virtual-node
multiplier `replicas`, the sorted ring `keys`, and the virtual-node →
real-node table `hashMap`. -/
structure Map where
  hash : String → Nat
  replicas : Nat
  keys : List Nat
  hashMap : Nat → String

/-- Go `defaultReplicas = 150`. -/
def defaultReplicas : Nat := 150

/-- A `ConsOptions` mutates the map under construction, as in the Go
functional-option pattern. -/
def ConsOptions : Type := Map → Map

/-- `New(opts...)`: start from the defaults (`defaultHash` is the external
crc32 checksum, kept abstract as a parameter `defHash`), then apply the
options in order. -/
def New (defHash : String → Nat) (opts : List ConsOptions) : Map :=
  opts.foldl (fun m o => o m)
    { hash := defHash, replicas := defaultReplicas, keys := [], hashMap := fun _ => "" }

/-- The `Replicas` option. -/
def Replicas (replicas : Nat) : ConsOptions := fun m => { m with replicas := replicas }

/-- The `HashFunc` option. -/
def HashFunc (hash : String → Nat) : ConsOptions := fun m => { m with hash := hash }

/-- The virtual-node hash the Go code computes for replica index `i` of
member `key`: `m.hash([]byte(strconv.Itoa(i) + key))`. -/
def vhash (m : Map) (i : Nat) (key : String) : Nat :=
  m.hash (toString i ++ key)

/-- The list of `replicas` virtual-node hashes of a member. -/
def vhashes (m : Map) (key : String) : List Nat :=
  (List.range m.replicas).map (fun i => vhash m i key)

/-- `Map.Add(keys...)`: for each member and each replica index, append the
virtual-node hash to `keys` and record `hashMap[hash] = key`; after all
members are processed, sort the ring (`sort.Ints`).  `sort.Ints` is
modelled by `List.insertionSort`: on integers any two sorted permutations
of the same multiset are the same list, so the choice of sorting algorithm
is immaterial. -/
def Map.Add (m : Map) (members : List String) : Map :=
  let p := members.foldl
    (fun (acc : List Nat × (Nat → String)) key =>
      (List.range m.replicas).foldl
        (fun (acc2 : List Nat × (Nat → String)) i =>
          (acc2.1 ++ [vhash m i key],
           fun h => if h = vhash m i key then key else acc2.2 h))
        acc)
    (m.keys, m.hashMap)
  { m with keys := List.insertionSort (· ≤ ·) p.1, hashMap := p.2 }

/-- `Map.Get(key)`: empty ring yields `""`; otherwise hash the key, find the
first ring position `≥` the hash by binary search, and read the owner map at
`keys[idx % len(keys)]` (the modulus realises the wrap-around). -/
def Map.Get (m : Map) (key : String) : String :=
  if m.keys.length = 0 then ""
  else
    let hash := m.hash key
    let idx := search m.keys hash
    m.hashMap (m.keys.getD (idx % m.keys.length) 0)

/-- One iteration of `Map.Remove`'s loop acting on the ring slice:
`idx := sort.SearchInts(keys, hash); keys = append(keys[:idx], keys[idx+1:]...)`.
The `append` removes the element at `idx` when `idx < len keys`; when
`idx = len keys` (every ring entry is `< hash`) the reslice `keys[idx+1:]`
is out of bounds and the Go code panics, modelled as `none`. -/
def removeStep (keys : List Nat) (hash : Nat) : Option (List Nat) :=
  let idx := search keys hash
  if idx < keys.length then some (keys.eraseIdx idx) else none

/-- One full iteration of the `Map.Remove` loop: remove the ring entry at
the searched index (`removeStep`), then delete the `hashMap` entry.  A
`none` accumulator records an earlier panic and short-circuits. -/
def removeIter (acc : Option Map) (hash : Nat) : Option Map :=
  match acc with
  | none => none
  | some mm =>
    match removeStep mm.keys hash with
    | none => none
    | some ks =>
      some { mm with keys := ks,
                     hashMap := fun h => if h = hash then "" else mm.hashMap h }

/-- `Map.Remove(key)`: recompute the `replicas` virtual-node hashes of the
member, in index order, and run `removeIter` for each: remove the ring
entry at the binary-search position and delete the `hashMap` entry
(deletion in the total-function model sets the value back to the zero
value `""`).  `none` models the panic raised when the searched position is
past the end of the ring; the panic aborts the loop before the `hashMap`
deletion of that iteration, exactly as in the Go code. -/
def Map.Remove (m : Map) (key : String) : Option Map :=
  ((List.range m.replicas).map (fun i => vhash m i key)).foldl removeIter (some m)

/-- A sequence of single-member `Add` calls, as issued by a membership
operator. -/
def addSeq (m : Map) (ms : List String) : Map :=
  ms.foldl (fun acc mem => acc.Add [mem]) m

/-- All virtual-node hashes a list of members generates, in member order
(an analysis abbreviation for theorem statements, not source code). -/
def allHashes (m : Map) (ms : List String) : List Nat :=
  ms.foldr (fun mem acc => vhashes m mem ++ acc) []

/-- The member a virtual hash belongs to: the first member of the list
whose virtual-node hashes contain it, `""` when there is none (an analysis
abbreviation for theorem statements, not source code). -/
def ownerOf (m : Map) (ms : List String) (h : Nat) : String :=
  match ms.find? (fun mem => decide (h ∈ vhashes m mem)) with
  | some mem => mem
  | none => ""

end consistenthash

/-!
Part 2: the cache group (package `lc_cache`, file `src/group.go`).

`group.go` refers to several repository files that are absent from `src/`
(`byteview.go`, `cache.go`, `peers.go`, the `singleflight` package); those
collaborators are modelled from the spec, each marked `Modelled from the
spec:` in its doc comment.

Go byte slices alias a backing array; to state ownership/cloning facts we
use an explicit heap: a `World` maps buffer references (`Nat`) to byte
contents, and a slice value is just a reference.  `World.next` is the
allocator bump pointer; every fresh allocation uses `next`, so a reference
below `next` may be live and a clone never aliases it.
-/

namespace lc_cache

/-- The heap of byte buffers: contents by reference, plus the next fresh
reference. -/
structure World where
  heap : Nat → List Nat
  next : Nat

/-- Modelled from the spec: `ByteView` (file `byteview.go`, absent from
`src/`) wraps one byte slice — here, one buffer reference. -/
structure ByteView where
  b : Nat
deriving DecidableEq

/-- Modelled from the spec: `cloneBytes` (file `byteview.go`, absent from
`src/`) copies a byte slice "into an owned, immutable buffer": it
allocates a fresh reference and copies the source contents there. -/
def cloneBytes (w : World) (src : Nat) : Nat × World :=
  (w.next,
   { heap := fun r => if r = w.next then w.heap src else w.heap r,
     next := w.next + 1 })

/-- Modelled from the spec: the bounded store `cache` (file `cache.go`,
absent from `src/`): entries `key -> {value, expiresAt: optional absolute
time}`, kept most-recently-used first.  Capacity accounting and LRU
eviction are omitted: no claim observes them, and per the spec eviction
never removes the entry just inserted.  Times are absolute `Nat` instants;
`none` means no expiration. -/
structure cache where
  cacheBytes : Int
  entries : List (String × ByteView × Option Nat)

/-- The raw stored entry for a key, ignoring expiration. -/
def cache.lookup (c : cache) (key : String) : Option (ByteView × Option Nat) :=
  match c.entries.find? (fun e => e.1 == key) with
  | some e => some e.2
  | none => none

/-- Modelled from the spec: `cache.get` reports found `= false` "if key
absent or its expiration time has passed" (an entry is retrievable before
`t` and not found at/after `t`); the recency reordering a hit performs is
not observable through any modelled operation and is omitted. -/
def cache.get (c : cache) (key : String) (now : Nat) : Option ByteView :=
  match c.lookup key with
  | none => none
  | some (v, none) => some v
  | some (v, some t) => if now < t then some v else none

/-- Modelled from the spec: insert or overwrite, without expiration. -/
def cache.add (c : cache) (key : String) (v : ByteView) : cache :=
  { c with entries := (key, v, none) :: c.entries.filter (fun e => e.1 != key) }

/-- Modelled from the spec: insert or overwrite with an absolute
expiration time. -/
def cache.addWithExpiration (c : cache) (key : String) (v : ByteView) (t : Nat) : cache :=
  { c with entries := (key, v, some t) :: c.entries.filter (fun e => e.1 != key) }

/-- Modelled from the spec: remove the entry if present and report whether
anything was removed. -/
def cache.delete (c : cache) (key : String) : Bool × cache :=
  (c.entries.any (fun e => e.1 == key),
   { c with entries := c.entries.filter (fun e => e.1 != key) })

/-- The Go `Getter` callback: `Get(key) -> ([]byte, bool, time.Time)`.
The byte slice is a buffer reference into the `World`; the `time.Time` is
a `Nat` instant where `0` models the zero time (`IsZero`). -/
def GetterFn : Type := String → Nat × Bool × Nat

/-- Modelled from the spec: the peer client handed out by the picker
(file `peers.go`, absent from `src/`); `group.go` calls both `Get` and
`Delete` on it.  `Get` returns a byte-slice reference or an error;
`Delete` returns the removed flag and an error (Go's `(bool, error)`
pair, with `none` for a nil error). -/
structure PeerGetter where
  Get : String → String → Nat × Option String
  Delete : String → String → Bool × Option String

/-- Modelled from the spec: the Peer Picker capability,
`PickPeer(key) -> (peer, ok, isSelf)`. -/
structure PeerPicker where
  PickPeer : String → PeerGetter × Bool × Bool

/-- The `Group` state from `group.go`: name, loader callback, local store,
optional peer picker.  The `singleflight.Group` field is not state the
sequential semantics can observe (see `singleflightDo`). -/
structure Group where
  name : String
  getter : GetterFn
  mainCache : cache
  peers : Option PeerPicker

/-- Modelled from the spec: `singleflight.Group.Do` (package
`singleflight`, absent from `src/`) "invokes the producer synchronously on
the calling execution context" and returns its result; in this sequential
embedding the deduplication of concurrent callers is invisible, so `Do`
is exactly the producer call. -/
def singleflightDo {α : Type} (fn : Unit → α) : α := fn ()

/-- `Group.getFromPeer`: call the peer's remote get; on error propagate
it, on success wrap a clone of the returned bytes in a `ByteView`. -/
def Group.getFromPeer (g : Group) (w : World) (peer : PeerGetter) (key : String) :
    Except String ByteView × World :=
  let r := peer.Get g.name key
  match r.2 with
  | some e => (.error e, w)
  | none =>
    let c := cloneBytes w r.1
    (.ok ⟨c.1⟩, c.2)

/-- `Group.getLocally`: re-check the main cache ("have a try again"), then
invoke the loader; `not found` is the error `"data not found"`; otherwise
clone the loader's bytes, store them with the supplied expiration when it
is non-zero and without expiration when it is the zero time, and return
the clone. -/
def Group.getLocally (g : Group) (w : World) (now : Nat) (key : String) :
    Except String ByteView × Group × World :=
  match g.mainCache.get key now with
  | some v => (.ok v, g, w)
  | none =>
    let r := g.getter key
    if r.2.1 = false then (.error "data not found", g, w)
    else
      let c := cloneBytes w r.1
      let bw : ByteView := ⟨c.1⟩
      if r.2.2 ≠ 0 then
        (.ok bw, { g with mainCache := g.mainCache.addWithExpiration key bw r.2.2 }, c.2)
      else
        (.ok bw, { g with mainCache := g.mainCache.add key bw }, c.2)

/-- `Group.load`: inside the deduplicator, try the peer path when a picker
is configured — on `ok` and `isSelf` a cache hit returns at once, on `ok`
and not self a successful remote get returns its value and a failed one is
only logged — and in every remaining case fall through to
`Group.getLocally`. -/
def Group.load (g : Group) (w : World) (now : Nat) (key : String) :
    Except String ByteView × Group × World :=
  singleflightDo (fun _ =>
    match g.peers with
    | some picker =>
      let pr := picker.PickPeer key
      if pr.2.1 then
        if pr.2.2 then
          match g.mainCache.get key now with
          | some v => (.ok v, g, w)
          | none => g.getLocally w now key
        else
          match g.getFromPeer w pr.1 key with
          | (.ok value, w2) => (.ok value, g, w2)
          | (.error _, w2) => g.getLocally w2 now key
      else g.getLocally w now key
    | none => g.getLocally w now key)

/-- `Group.Get`: an empty key is rejected with `"key is required"`;
otherwise the result is `Group.load`'s. -/
def Group.Get (g : Group) (w : World) (now : Nat) (key : String) :
    Except String ByteView × Group × World :=
  if key = "" then (.error "key is required", g, w)
  else g.load w now key

/-- `Group.deleteFromPeer`: call the peer's remote delete; a non-nil error
is returned with the removed flag forced to `false`, a nil error returns
the peer's flag. -/
def Group.deleteFromPeer (g : Group) (peer : PeerGetter) (key : String) :
    Bool × Option String :=
  let r := peer.Delete g.name key
  match r.2 with
  | some e => (false, some e)
  | none => (r.1, none)

/-- `Group.Delete`: an empty key returns `(true, error "key is required")`;
with no picker, delete locally; with a picker, `ok = false` yields
`(false, nil)`, `isSelf` deletes locally, and otherwise the remote delete
result is returned with no local mutation. -/
def Group.Delete (g : Group) (key : String) : (Bool × Option String) × Group :=
  if key = "" then ((true, some "key is required"), g)
  else
    match g.peers with
    | none =>
      let r := g.mainCache.delete key
      ((r.1, none), { g with mainCache := r.2 })
    | some picker =>
      let pr := picker.PickPeer key
      if pr.2.1 = false then ((false, none), g)
      else if pr.2.2 then
        let r := g.mainCache.delete key
        ((r.1, none), { g with mainCache := r.2 })
      else
        (g.deleteFromPeer pr.1 key, g)

/-- The process-wide registry `groups : map[string]*Group`, modelled as a
function threaded through the registry operations. -/
def Registry : Type := String → Option Group

/-- `NewGroup(name, cacheBytes, getter)`: a nil getter panics (`none`
result) before the registry lock is even taken, leaving the registry
untouched; otherwise a fresh group with an empty cache and no peers is
registered under `name`, overwriting any previous entry. -/
def NewGroup (gs : Registry) (name : String) (cacheBytes : Int)
    (getter : Option GetterFn) : Option Group × Registry :=
  match getter with
  | none => (none, gs)
  | some f =>
    let g : Group :=
      { name := name, getter := f,
        mainCache := { cacheBytes := cacheBytes, entries := [] }, peers := none }
    (some g, fun n => if n = name then some g else gs n)

/-- `GetGroup(name)`. -/
def GetGroup (gs : Registry) (name : String) : Option Group := gs name

/-- `Group.RegisterPeers`: panics (`none`) when the picker is already set;
otherwise sets it. -/
def Group.RegisterPeers (g : Group) (peers : PeerPicker) : Option Group :=
  match g.peers with
  | some _ => none
  | none => some { g with peers := some peers }

/-- `DestroyGroup(name)`: remove the entry when present. -/
def DestroyGroup (gs : Registry) (name : String) : Registry :=
  match GetGroup gs name with
  | some _ => fun n => if n = name then none else gs n
  | none => gs

/-- Whether a result carries an error (a Go non-nil `error`). -/
def isErr {α : Type} (r : Except String α) : Bool :=
  match r with
  | .error _ => true
  | .ok _ => false

/-- The remote delegation of a `Get` succeeds: a picker is configured, it
resolves ownership (`ok`) to a peer other than self, and the remote get
returns no error (an analysis abbreviation for theorem statements, not
source code). -/
def remoteOk (g : Group) (key : String) : Prop :=
  match g.peers with
  | none => False
  | some picker =>
    (picker.PickPeer key).2.1 = true ∧ (picker.PickPeer key).2.2 = false ∧
      ((picker.PickPeer key).1.Get g.name key).2 = none

/-- Overwrite one buffer of a heap: the model of a Go in-place mutation of
the slice that holds that buffer. -/
def heapWrite (heap : Nat → List Nat) (ref : Nat) (data : List Nat) : Nat → List Nat :=
  fun r => if r = ref then data else heap r

end lc_cache

/-!
Concrete instances, used only by witness and counterexample theorems.
Each claim has its own instances.
-/

namespace consistenthash

/-- Hash function for the C1 instances: member `"a"` hashes to `5`,
member `"b"` to `99`, everything else (member `"a"`, the sole occupant)
to `10`. -/
def hf1 : String → Nat :=
  fun s => if s = "0b" then 5 else if s = "0c" then 99 else 10

/-- A reachable ring state: one member `"a"`, one replica, ring `[10]`. -/
def mEx1 : Map := (New hf1 [Replicas 1]).Add ["a"]

/-- Ring for the witness of the amended C1 theorem. -/
def mEx1b : Map :=
  { hash := hf1, replicas := 1, keys := [4, 9], hashMap := fun _ => "n" }

/-- Hash function for the C4 witness. -/
def hf4 : String → Nat := fun s => if s = "ka" then 4 else 99

/-- Ring for the C4 witness. -/
def mEx4 : Map :=
  { hash := hf4, replicas := 1, keys := [3, 7, 10],
    hashMap := fun h => if h = 3 then "a" else if h = 7 then "b" else "c" }

/-- Hash function for the C5 witness. -/
def hf5 : String → Nat :=
  fun s => if s = "0x" then 4 else if s = "1x" then 8 else 20

/-- Empty two-replica ring for the C5 witness. -/
def mEx5 : Map := New hf5 [Replicas 2]

/-- Hash function for the C6 witness. -/
def hf6 : String → Nat :=
  fun s => if s = "0a" then 10 else if s = "0b" then 20 else 30

end consistenthash

namespace lc_cache

/-- Loader for the C2 witness: never finds anything. -/
def getter2 : GetterFn := fun _ => (0, false, 0)

/-- Group for the C2 witness. -/
def gEx2 : Group :=
  { name := "g2", getter := getter2,
    mainCache := { cacheBytes := 100, entries := [] }, peers := none }

/-- Heap for the C2 witness. -/
def wEx2 : World := { heap := fun _ => [], next := 0 }

/-- Loader for the C7 witness: returns buffer `0`, found, no expiration. -/
def getter7 : GetterFn := fun _ => (0, true, 0)

/-- Group for the C7 witness. -/
def gEx7 : Group :=
  { name := "g7", getter := getter7,
    mainCache := { cacheBytes := 100, entries := [] }, peers := none }

/-- Heap for the C7 witness: buffer `0` holds `[1, 2, 3]`. -/
def wEx7 : World := { heap := fun r => if r = 0 then [1, 2, 3] else [], next := 1 }

/-- Loader for the C8 instances. -/
def getter8 : GetterFn := fun _ => (0, false, 0)

/-- Peer for the C8 instances: its remote delete reports removed `= true`
together with a non-nil error. -/
def peerEx8 : PeerGetter :=
  { Get := fun _ _ => (0, none), Delete := fun _ _ => (true, some "peer down") }

/-- Picker for the C8 instances: always resolves to the remote peer. -/
def pickerEx8 : PeerPicker := { PickPeer := fun _ => (peerEx8, true, false) }

/-- Group for the C8 instances. -/
def gEx8 : Group :=
  { name := "g8", getter := getter8,
    mainCache := { cacheBytes := 100, entries := [] }, peers := some pickerEx8 }

/-- Registry for the C9 witness. -/
def gsEx9 : Registry := fun _ => none

/-- Loader for the C9 witness. -/
def getter9 : GetterFn := fun _ => (0, false, 0)

/-- Group for the C9 witness (no picker registered yet). -/
def gEx9 : Group :=
  { name := "g9", getter := getter9,
    mainCache := { cacheBytes := 100, entries := [] }, peers := none }

/-- Peer for the C9 witness. -/
def peerEx9 : PeerGetter :=
  { Get := fun _ _ => (0, none), Delete := fun _ _ => (false, none) }

/-- Picker for the C9 witness. -/
def pickerEx9 : PeerPicker := { PickPeer := fun _ => (peerEx9, true, true) }

/-- Loader for the C10 witness. -/
def getter10 : GetterFn := fun _ => (5, true, 7)

/-- Peer for the C10 witness. -/
def peerEx10 : PeerGetter :=
  { Get := fun _ _ => (0, some "nope"), Delete := fun _ _ => (false, none) }

/-- Picker for the C10 witness: reports that no peer set can be
determined (`ok = false`). -/
def pickerEx10 : PeerPicker := { PickPeer := fun _ => (peerEx10, false, false) }

/-- Group for the C10 witness. -/
def gEx10 : Group :=
  { name := "g10", getter := getter10,
    mainCache := { cacheBytes := 100, entries := [] }, peers := none }

/-- Heap for the C10 witness. -/
def wEx10 : World := { heap := fun _ => [], next := 3 }

end lc_cache

/-! Lemmas about `search` (the binary-search contract) on sorted rings. -/

namespace consistenthash

theorem search_le_length (keys : List Nat) (x : Nat) : search keys x ≤ keys.length := by
  induction keys with
  | nil => simp [search]
  | cons k rest ih =>
    simp only [search, List.length_cons]
    split
    · exact Nat.zero_le _
    · exact Nat.succ_le_succ ih

theorem search_find?_some {x y : Nat} :
    ∀ keys : List Nat, keys.find? (fun k => decide (x ≤ k)) = some y →
      search keys x < keys.length ∧ keys.getD (search keys x) 0 = y := by
  intro keys
  induction keys with
  | nil => intro h; simp [List.find?] at h
  | cons k rest ih =>
    intro h
    by_cases hxk : x ≤ k
    · rw [List.find?_cons_of_pos _ (by simpa using hxk)] at h
      injection h with h
      subst h
      simp [search, hxk]
    · rw [List.find?_cons_of_neg _ (by simpa using hxk)] at h
      obtain ⟨h1, h2⟩ := ih h
      refine ⟨?_, ?_⟩
      · simpa [search, hxk] using Nat.succ_lt_succ h1
      · simpa [search, hxk] using h2

theorem search_find?_none {x : Nat} :
    ∀ keys : List Nat, keys.find? (fun k => decide (x ≤ k)) = none →
      search keys x = keys.length := by
  intro keys
  induction keys with
  | nil => intro _; simp [search]
  | cons k rest ih =>
    intro h
    by_cases hxk : x ≤ k
    · rw [List.find?_cons_of_pos _ (by simpa using hxk)] at h
      simp at h
    · rw [List.find?_cons_of_neg _ (by simpa using hxk)] at h
      simp [search, hxk, ih h]

/-- In a sorted ring that contains `x`, the first entry `≥ x` is `x` itself. -/
theorem find?_of_mem {x : Nat} :
    ∀ keys : List Nat, keys.Sorted (· ≤ ·) → x ∈ keys →
      keys.find? (fun k => decide (x ≤ k)) = some x := by
  intro keys
  induction keys with
  | nil => intro _ hm; simp at hm
  | cons k rest ih =>
    intro hs hm
    rcases List.sorted_cons.mp hs with ⟨hk, hrest⟩
    by_cases hxk : x ≤ k
    · rw [List.find?_cons_of_pos _ (by simpa using hxk)]
      rcases List.mem_cons.mp hm with h | h
      · rw [h]
      · exact congrArg some (Nat.le_antisymm (hk x h) hxk)
    · rw [List.find?_cons_of_neg _ (by simpa using hxk)]
      rcases List.mem_cons.mp hm with h | h
      · exact absurd (h ▸ Nat.le_refl x) hxk
      · exact ih hrest h

/-- In a sorted ring, the first entry `≥ x` is minimal among entries `≥ x`. -/
theorem find?_min {x y : Nat} :
    ∀ keys : List Nat, keys.Sorted (· ≤ ·) →
      keys.find? (fun k => decide (x ≤ k)) = some y →
      ∀ z ∈ keys, x ≤ z → y ≤ z := by
  intro keys
  induction keys with
  | nil => intro _ h; simp [List.find?] at h
  | cons k rest ih =>
    intro hs h z hz hxz
    rcases List.sorted_cons.mp hs with ⟨hk, hrest⟩
    by_cases hxk : x ≤ k
    · rw [List.find?_cons_of_pos _ (by simpa using hxk)] at h
      injection h with h
      subst h
      rcases List.mem_cons.mp hz with h | h
      · exact le_of_eq h.symm
      · exact hk z h
    · rw [List.find?_cons_of_neg _ (by simpa using hxk)] at h
      rcases List.mem_cons.mp hz with hzk | hzk
      · exact absurd (hzk ▸ hxz) hxk
      · exact ih hrest h z hzk hxz

/-- The element `search` points at is the one `find?` returns, so removing
at the `search` index removes the first entry `≥ x`. -/
theorem eraseIdx_search {x y : Nat} :
    ∀ keys : List Nat, keys.Sorted (· ≤ ·) →
      keys.find? (fun k => decide (x ≤ k)) = some y →
      keys.eraseIdx (search keys x) = keys.erase y := by
  intro keys
  induction keys with
  | nil => intro _ h; simp [List.find?] at h
  | cons k rest ih =>
    intro hs h
    rcases List.sorted_cons.mp hs with ⟨_, hrest⟩
    by_cases hxk : x ≤ k
    · rw [List.find?_cons_of_pos _ (by simpa using hxk)] at h
      injection h with h
      subst h
      simp [search, hxk, List.eraseIdx, List.erase_cons_head]
    · rw [List.find?_cons_of_neg _ (by simpa using hxk)] at h
      have hxy : x ≤ y := by simpa using List.find?_some h
      have hky : k ≠ y := fun hk => hxk (hk ▸ hxy)
      simp only [search, hxk, if_false, List.eraseIdx_cons_succ, ih hrest h,
        List.erase_cons_tail]
      rw [List.erase_cons_tail (by simpa using hky)]

/-- What one `Remove` iteration does to a sorted ring, in all three cases:
a present hash is removed exactly; an absent hash with a successor removes
the successor instead; an absent hash above every entry panics. -/
theorem removeStep_spec (keys : List Nat) (h : Nat) (hs : keys.Sorted (· ≤ ·)) :
    (h ∈ keys → removeStep keys h = some (keys.erase h)) ∧
    (h ∉ keys → ∀ y, keys.find? (fun k => decide (h ≤ k)) = some y →
      y ≠ h ∧ y ∈ keys ∧ removeStep keys h = some (keys.erase y)) ∧
    ((∀ y ∈ keys, y < h) → removeStep keys h = none) := by
  refine ⟨?_, ?_, ?_⟩
  · intro hm
    have hf := find?_of_mem keys hs hm
    obtain ⟨hlt, _⟩ := search_find?_some keys hf
    simp [removeStep, hlt, eraseIdx_search keys hs hf]
  · intro hnm y hf
    have hy : y ∈ keys := List.mem_of_find?_eq_some hf
    obtain ⟨hlt, _⟩ := search_find?_some keys hf
    refine ⟨fun hyh => hnm (hyh ▸ hy), hy, ?_⟩
    simp [removeStep, hlt, eraseIdx_search keys hs hf]
  · intro hall
    have hf : keys.find? (fun k => decide (h ≤ k)) = none := by
      rw [List.find?_eq_none]
      intro a ha
      simpa using Nat.not_le.mpr (hall a ha)
    simp [removeStep, search_find?_none keys hf]

/-- `Map.Add` leaves the hash function and the replica count unchanged. -/
theorem Add_hash (m : Map) (l : List String) :
    (m.Add l).hash = m.hash ∧ (m.Add l).replicas = m.replicas := by
  simp [Map.Add]

/-- The inner loop of `Map.Add` for one member, over an arbitrary list of
replica indices: it appends the virtual hashes and points each of them at
the member. -/
theorem add_inner_foldl (m : Map) (key : String) :
    ∀ (l : List Nat) (acc : List Nat × (Nat → String)),
      l.foldl
        (fun (acc2 : List Nat × (Nat → String)) i =>
          (acc2.1 ++ [vhash m i key],
           fun h => if h = vhash m i key then key else acc2.2 h))
        acc
      = (acc.1 ++ l.map (fun i => vhash m i key),
         fun h => if h ∈ l.map (fun i => vhash m i key) then key else acc.2 h) := by
  intro l
  induction l with
  | nil => intro acc; simp
  | cons i rest ih =>
    intro acc
    rw [List.foldl_cons, ih]
    refine Prod.ext (by simp) ?_
    funext h
    by_cases h1 : h ∈ rest.map (fun j => vhash m j key) <;>
      by_cases h2 : h = vhash m i key <;>
      simp [h1, h2]

/-- `Map.Add` with a single member: sort the old ring plus the member
virtual hashes, and remap exactly those hashes to the member. -/
theorem Add_single (m : Map) (key : String) :
    m.Add [key] =
      { m with keys := List.insertionSort (· ≤ ·) (m.keys ++ vhashes m key),
               hashMap := fun h => if h ∈ vhashes m key then key else m.hashMap h } := by
  simp only [Map.Add, List.foldl_cons, List.foldl_nil, add_inner_foldl, vhashes]

/-- The `Remove` loop over a duplicate-free list of hashes that are all
present in a sorted ring: every step erases exactly its hash, no panic
occurs, and the `hashMap` entries of exactly those hashes are cleared. -/
theorem remove_foldl :
    ∀ (hl : List Nat) (mm : Map), mm.keys.Sorted (· ≤ ·) → hl.Nodup →
      (∀ h ∈ hl, h ∈ mm.keys) →
      hl.foldl removeIter (some mm) =
        some { mm with keys := hl.foldl (fun ks h => ks.erase h) mm.keys,
                       hashMap := fun h => if h ∈ hl then "" else mm.hashMap h } := by
  intro hl
  induction hl with
  | nil => intro mm _ _ _; simp
  | cons h0 rest ih =>
    intro mm hsort hnodup hmem
    rcases List.nodup_cons.mp hnodup with ⟨h0nr, hnr⟩
    have hstep : removeIter (some mm) h0 =
        some { mm with keys := mm.keys.erase h0,
                       hashMap := fun h => if h = h0 then "" else mm.hashMap h } := by
      have := (removeStep_spec mm.keys h0 hsort).1 (hmem h0 (List.mem_cons_self h0 rest))
      simp [removeIter, this]
    rw [List.foldl_cons, hstep]
    have hsort1 : (mm.keys.erase h0).Sorted (· ≤ ·) :=
      List.Pairwise.sublist (List.erase_sublist h0 mm.keys) hsort
    have hmem1 : ∀ h ∈ rest, h ∈ mm.keys.erase h0 := by
      intro h hh
      have hne : h ≠ h0 := fun he => h0nr (he ▸ hh)
      exact (List.mem_erase_of_ne hne).mpr (hmem h (List.mem_cons_of_mem h0 hh))
    rw [ih _ hsort1 hnr hmem1]
    refine congrArg some ?_
    refine Map.mk.injEq .. |>.mpr ⟨rfl, rfl, by simp, ?_⟩
    funext h
    by_cases h1 : h ∈ rest <;> by_cases h2 : h = h0 <;> simp [h1, h2]

/-- Erasing, one by one, a duplicate-free batch of elements that a sorted
list holds in addition to a sorted base list recovers exactly the base
list. -/
theorem foldl_erase_restore :
    ∀ (hl l keys0 : List Nat), l.Sorted (· ≤ ·) → keys0.Sorted (· ≤ ·) →
      l.Perm (keys0 ++ hl) → hl.Nodup → (∀ h ∈ hl, h ∉ keys0) →
      hl.foldl (fun ks h => ks.erase h) l = keys0 := by
  intro hl
  induction hl with
  | nil =>
    intro l keys0 hsl hs0 hperm _ _
    simpa using List.eq_of_perm_of_sorted (by simpa using hperm) hsl hs0
  | cons h0 rest ih =>
    intro l keys0 hsl hs0 hperm hnodup hdisj
    rcases List.nodup_cons.mp hnodup with ⟨h0nr, hnr⟩
    rw [List.foldl_cons]
    refine ih (l.erase h0) keys0
      (List.Pairwise.sublist (List.erase_sublist h0 l) hsl) hs0 ?_ hnr
      (fun h hh => hdisj h (List.mem_cons_of_mem h0 hh))
    have h1 : (keys0 ++ h0 :: rest).erase h0 = keys0 ++ rest := by
      rw [List.erase_append_right _ (hdisj h0 (List.mem_cons_self h0 rest)),
        List.erase_cons_head]
    exact h1 ▸ hperm.erase h0

/-- Claim C5 — deterministic recomputation: when a member virtual-node
hashes are fresh for the current ring (pairwise distinct, not ring
entries, unmapped), `Remove` immediately after `Add` restores the ring
and the owner table exactly. -/
theorem add_remove_roundtrip (m : Map) (mem : String)
    (hsorted : m.keys.Sorted (· ≤ ·))
    (hnodup : (vhashes m mem).Nodup)
    (hfresh : ∀ h ∈ vhashes m mem, h ∉ m.keys)
    (hmap : ∀ h ∈ vhashes m mem, m.hashMap h = "") :
    (m.Add [mem]).Remove mem = some m := by
  rw [Add_single]
  show Map.Remove
    { m with keys := List.insertionSort (· ≤ ·) (m.keys ++ vhashes m mem),
             hashMap := fun h => if h ∈ vhashes m mem then mem else m.hashMap h } mem
    = some m
  unfold Map.Remove
  have hsort1 : (List.insertionSort (· ≤ ·) (m.keys ++ vhashes m mem)).Sorted (· ≤ ·) :=
    List.sorted_insertionSort _ _
  have hmem1 : ∀ h ∈ vhashes m mem,
      h ∈ List.insertionSort (· ≤ ·) (m.keys ++ vhashes m mem) := by
    intro h hh
    exact ((List.perm_insertionSort _ _).mem_iff).mpr (List.mem_append_right _ hh)
  rw [show ((List.range m.replicas).map fun i =>
        vhash { m with keys := List.insertionSort (· ≤ ·) (m.keys ++ vhashes m mem),
                       hashMap := fun h => if h ∈ vhashes m mem then mem else m.hashMap h }
          i mem) = vhashes m mem from rfl]
  rw [remove_foldl (vhashes m mem) _ hsort1 hnodup hmem1]
  refine congrArg some ?_
  refine Map.mk.injEq .. |>.mpr ⟨rfl, rfl, ?_, ?_⟩
  · exact foldl_erase_restore (vhashes m mem) _ m.keys hsort1 hsorted
      (List.perm_insertionSort _ _) hnodup hfresh
  · funext h
    by_cases hh : h ∈ vhashes m mem
    · simp [hh, (hmap h hh).symm]
    · simp [hh]

theorem getD_mem : ∀ (l : List Nat) (i : Nat), i < l.length → l.getD i 0 ∈ l := by
  intro l
  induction l with
  | nil => intro i h; simp at h
  | cons a t ih =>
    intro i h
    cases i with
    | zero => simp
    | succ j =>
      simp only [List.getD_cons_succ]
      exact List.mem_cons_of_mem a (ih j (Nat.lt_of_succ_lt_succ h))

/-- Claim C4 — `Get` on a sorted ring: empty ring yields `""`; when some
entry is `≥` the key hash, the owner of the least such entry is returned;
when the key hash exceeds every entry, the lookup wraps around to the
first (smallest) ring entry. -/
theorem ring_get_spec (m : Map) (key : String) (hsort : m.keys.Sorted (· ≤ ·)) :
    (m.keys = [] → m.Get key = "") ∧
    (∀ y, m.keys.find? (fun k => decide (m.hash key ≤ k)) = some y →
      m.Get key = m.hashMap y ∧ m.hash key ≤ y ∧
      ∀ z ∈ m.keys, m.hash key ≤ z → y ≤ z) ∧
    (∀ k0 rest, m.keys = k0 :: rest →
      m.keys.find? (fun k => decide (m.hash key ≤ k)) = none →
      m.Get key = m.hashMap k0 ∧ ∀ z ∈ m.keys, k0 ≤ z) := by
  refine ⟨?_, ?_, ?_⟩
  · intro h
    simp [Map.Get, h]
  · intro y hf
    obtain ⟨hlt, hd⟩ := search_find?_some m.keys hf
    have hne : m.keys.length ≠ 0 := Nat.pos_iff_ne_zero.mp (Nat.lt_of_le_of_lt (Nat.zero_le _) hlt)
    refine ⟨?_, by simpa using List.find?_some hf, find?_min m.keys hsort hf⟩
    simp only [Map.Get, hne, if_false]
    rw [Nat.mod_eq_of_lt hlt, hd]
  · intro k0 rest hk hf
    have hlen : m.keys.length ≠ 0 := by rw [hk]; simp
    have hsearch : search m.keys (m.hash key) = m.keys.length := search_find?_none m.keys hf
    constructor
    · simp only [Map.Get, hlen, if_false]
      rw [hsearch, Nat.mod_self, hk, List.getD_cons_zero]
    · intro z hz
      rw [hk] at hz hsort
      rcases List.sorted_cons.mp hsort with ⟨hall, _⟩
      rcases List.mem_cons.mp hz with h | h
      · exact le_of_eq h.symm
      · exact hall z h

/-- Claim C1, amended — one `Remove` iteration on a sorted ring does not
tolerate an absent hash: a present hash is removed exactly (ring entry and
owner-table entry); an absent hash with some ring entry `≥` it removes
that unrelated entry in its place; an absent hash above every ring entry
panics (`none`). -/
theorem remove_step_behavior (mm : Map) (hash : Nat) (hsort : mm.keys.Sorted (· ≤ ·)) :
    (hash ∈ mm.keys → removeIter (some mm) hash =
      some { mm with keys := mm.keys.erase hash,
                     hashMap := fun h => if h = hash then "" else mm.hashMap h }) ∧
    (hash ∉ mm.keys → ∀ y, mm.keys.find? (fun k => decide (hash ≤ k)) = some y →
      y ≠ hash ∧ y ∈ mm.keys ∧ removeIter (some mm) hash =
        some { mm with keys := mm.keys.erase y,
                       hashMap := fun h => if h = hash then "" else mm.hashMap h }) ∧
    ((∀ y ∈ mm.keys, y < hash) → removeIter (some mm) hash = none) := by
  obtain ⟨h1, h2, h3⟩ := removeStep_spec mm.keys hash hsort
  refine ⟨?_, ?_, ?_⟩
  · intro hm
    simp [removeIter, h1 hm]
  · intro hnm y hf
    obtain ⟨hy1, hy2, hy3⟩ := h2 hnm y hf
    exact ⟨hy1, hy2, by simp [removeIter, hy3]⟩
  · intro hall
    simp [removeIter, h3 hall]

theorem vhashes_Add (m : Map) (l : List String) (mem : String) :
    vhashes (m.Add l) mem = vhashes m mem := by
  simp [vhashes, vhash, Map.Add]

theorem allHashes_cons (m : Map) (mem : String) (rest : List String) :
    allHashes m (mem :: rest) = vhashes m mem ++ allHashes m rest := rfl

theorem allHashes_Add (m : Map) (l : List String) (ms : List String) :
    allHashes (m.Add l) ms = allHashes m ms := by
  induction ms with
  | nil => rfl
  | cons mem rest ih => rw [allHashes_cons, allHashes_cons, vhashes_Add, ih]

theorem ownerOf_cons (m : Map) (mem : String) (rest : List String) (h : Nat) :
    ownerOf m (mem :: rest) h =
      if h ∈ vhashes m mem then mem else ownerOf m rest h := by
  by_cases hh : h ∈ vhashes m mem
  · simp [ownerOf, List.find?_cons_of_pos, hh]
  · rw [ownerOf, List.find?_cons_of_neg _ (by simpa using hh), if_neg hh]
    rfl

theorem ownerOf_Add (m : Map) (l : List String) (ms : List String) (h : Nat) :
    ownerOf (m.Add l) ms h = ownerOf m ms h := by
  induction ms with
  | nil => rfl
  | cons mem rest ih => rw [ownerOf_cons, ownerOf_cons, vhashes_Add, ih]

theorem vhashes_length (m : Map) (mem : String) :
    (vhashes m mem).length = m.replicas := by
  simp [vhashes]

theorem allHashes_length (m : Map) (ms : List String) :
    (allHashes m ms).length = ms.length * m.replicas := by
  induction ms with
  | nil => simp [allHashes]
  | cons mem rest ih =>
    rw [allHashes_cons, List.length_append, vhashes_length, ih, List.length_cons]
    ring

theorem ownerOf_mem (m : Map) :
    ∀ (ms : List String) (h : Nat), h ∈ allHashes m ms →
      ownerOf m ms h ∈ ms ∧ h ∈ vhashes m (ownerOf m ms h) := by
  intro ms
  induction ms with
  | nil => intro h hh; simp [allHashes] at hh
  | cons mem rest ih =>
    intro h hh
    rw [allHashes_cons] at hh
    by_cases hv : h ∈ vhashes m mem
    · rw [ownerOf_cons, if_pos hv]
      exact ⟨List.mem_cons_self mem rest, hv⟩
    · have hr : h ∈ allHashes m rest := by
        rcases List.mem_append.mp hh with h1 | h1
        · exact absurd h1 hv
        · exact h1
      rw [ownerOf_cons, if_neg hv]
      obtain ⟨h1, h2⟩ := ih h hr
      exact ⟨List.mem_cons_of_mem mem h1, h2⟩

/-- The state reached by a sequence of single-member `Add` calls, when no
hash collides with another hash or an existing ring entry: the ring is the
sorted multiset of old entries plus all generated virtual hashes, and the
owner table maps each generated hash to its member. -/
theorem addSeq_spec :
    ∀ (ms : List String) (m : Map), m.keys.Sorted (· ≤ ·) →
      (m.keys ++ allHashes m ms).Nodup →
      (addSeq m ms).keys.Perm (m.keys ++ allHashes m ms) ∧
      (addSeq m ms).keys.Sorted (· ≤ ·) ∧
      (∀ h, (addSeq m ms).hashMap h =
        if h ∈ allHashes m ms then ownerOf m ms h else m.hashMap h) := by
  intro ms
  induction ms with
  | nil =>
    intro m hs _
    refine ⟨by simp [addSeq, allHashes], by simpa [addSeq] using hs, ?_⟩
    intro h
    simp [addSeq, allHashes]
  | cons mem rest ih =>
    intro m hs hn
    have hstep : addSeq m (mem :: rest) = addSeq (m.Add [mem]) rest := rfl
    have hmap1 : (m.Add [mem]).hashMap =
        fun h => if h ∈ vhashes m mem then mem else m.hashMap h := by
      rw [Add_single]
    have hkeys1 : (m.Add [mem]).keys =
        List.insertionSort (· ≤ ·) (m.keys ++ vhashes m mem) := by
      rw [Add_single]
    have hperm1 : (m.Add [mem]).keys.Perm (m.keys ++ vhashes m mem) := by
      rw [hkeys1]; exact List.perm_insertionSort _ _
    have hsort1 : (m.Add [mem]).keys.Sorted (· ≤ ·) := by
      rw [hkeys1]; exact List.sorted_insertionSort _ _
    rw [allHashes_cons] at hn
    have hnodup0 : (m.keys ++ vhashes m mem ++ allHashes m rest).Nodup := by
      rwa [List.append_assoc]
    have hn1 : ((m.Add [mem]).keys ++ allHashes (m.Add [mem]) rest).Nodup := by
      rw [allHashes_Add]
      exact ((hperm1.append_right (allHashes m rest)).nodup_iff).mpr hnodup0
    obtain ⟨ihp, ihs, ihm⟩ := ih (m.Add [mem]) hsort1 hn1
    have hdisj : ∀ h : Nat, h ∈ vhashes m mem → h ∈ allHashes m rest → False := by
      intro h h1 h2
      exact (List.nodup_append.mp hnodup0).2.2 (List.mem_append_right _ h1) h2
    refine ⟨?_, hstep ▸ ihs, ?_⟩
    · rw [hstep, allHashes_cons]
      refine (ihp.trans ?_)
      rw [allHashes_Add]
      have hp2 := hperm1.append_right (allHashes m rest)
      rwa [List.append_assoc] at hp2
    · intro h
      rw [hstep, ihm h, allHashes_Add, ownerOf_Add, allHashes_cons, ownerOf_cons, hmap1]
      by_cases h1 : h ∈ allHashes m rest
      · have h2 : h ∉ vhashes m mem := fun hv => hdisj h hv h1
        simp [h1, h2]
      · by_cases h2 : h ∈ vhashes m mem
        · simp [h1, h2]
        · simp [h1, h2]

/-- Among all generated virtual hashes, exactly `replicas` belong to each
listed member. -/
theorem filter_owner_length :
    ∀ (ms : List String) (m : Map), (allHashes m ms).Nodup → ms.Nodup →
      ∀ mem ∈ ms,
        ((allHashes m ms).filter (fun h => ownerOf m ms h == mem)).length
          = m.replicas := by
  intro ms
  induction ms with
  | nil => intro m _ _ mem hm; simp at hm
  | cons mem2 rest ih =>
    intro m hn hms mem hm
    rw [allHashes_cons] at hn ⊢
    have hdisj := (List.nodup_append.mp hn).2.2
    rw [List.filter_append, List.length_append]
    rcases List.mem_cons.mp hm with he | he
    · subst he
      have hb : (vhashes m mem).filter
          (fun h => ownerOf m (mem :: rest) h == mem) = vhashes m mem := by
        apply List.filter_eq_self.mpr
        intro h hh
        rw [ownerOf_cons, if_pos hh]
        simp
      have hr : (allHashes m rest).filter
          (fun h => ownerOf m (mem :: rest) h == mem) = [] := by
        apply List.filter_eq_nil_iff.mpr
        intro h hh
        have hv : h ∉ vhashes m mem := fun hvm => hdisj hvm hh
        rw [ownerOf_cons, if_neg hv]
        have hmemrest : mem ∉ rest := (List.nodup_cons.mp hms).1
        have ho := (ownerOf_mem m rest h hh).1
        simp only [beq_iff_eq]
        intro heq
        exact hmemrest (heq ▸ ho)
      rw [hb, hr, vhashes_length]
      simp
    · have hne : mem2 ≠ mem := fun he2 => (List.nodup_cons.mp hms).1 (he2 ▸ he)
      have hb : (vhashes m mem2).filter
          (fun h => ownerOf m (mem2 :: rest) h == mem) = [] := by
        apply List.filter_eq_nil_iff.mpr
        intro h hh
        rw [ownerOf_cons, if_pos hh]
        simp [hne]
      have hr : (allHashes m rest).filter (fun h => ownerOf m (mem2 :: rest) h == mem)
          = (allHashes m rest).filter (fun h => ownerOf m rest h == mem) := by
        apply List.filter_congr
        intro h hh
        have hv : h ∉ vhashes m mem2 := fun hvm => hdisj hvm hh
        rw [ownerOf_cons, if_neg hv]
      rw [hb, hr, ih m (List.nodup_append.mp hn).2.1 (List.nodup_cons.mp hms).2 mem he]
      simp

/-- Claim C6 — ring balance: a sequence of `Add` calls for distinct
members whose virtual hashes never collide yields `M * R` ring entries,
exactly `R` per member, and `Get` always answers with one of the added
members once at least one exists. -/
theorem ring_balance (hf : String → Nat) (R : Nat) (ms : List String)
    (hR : 0 < R) (hms : ms.Nodup)
    (hcol : (allHashes (New hf [Replicas R]) ms).Nodup) :
    ((addSeq (New hf [Replicas R]) ms).keys.length = ms.length * R) ∧
    (∀ mem ∈ ms,
      ((addSeq (New hf [Replicas R]) ms).keys.filter
        (fun h => (addSeq (New hf [Replicas R]) ms).hashMap h == mem)).length = R) ∧
    (ms ≠ [] → ∀ key, (addSeq (New hf [Replicas R]) ms).Get key ∈ ms) := by
  have hm0keys : (New hf [Replicas R]).keys = [] := rfl
  have hm0rep : (New hf [Replicas R]).replicas = R := rfl
  obtain ⟨hp, hsorted, hmap⟩ := addSeq_spec ms (New hf [Replicas R])
    (by rw [hm0keys]; exact List.sorted_nil)
    (by rw [hm0keys]; simpa using hcol)
  have hp2 : (addSeq (New hf [Replicas R]) ms).keys.Perm
      (allHashes (New hf [Replicas R]) ms) := by
    rw [hm0keys] at hp
    simpa using hp
  have hlen : (addSeq (New hf [Replicas R]) ms).keys.length = ms.length * R := by
    rw [hp2.length_eq, allHashes_length, hm0rep]
  refine ⟨hlen, ?_, ?_⟩
  · intro mem hm
    have hfc := (hp2.filter
      (fun h => (addSeq (New hf [Replicas R]) ms).hashMap h == mem)).length_eq
    rw [hfc]
    have hcg : (allHashes (New hf [Replicas R]) ms).filter
        (fun h => (addSeq (New hf [Replicas R]) ms).hashMap h == mem)
        = (allHashes (New hf [Replicas R]) ms).filter
          (fun h => ownerOf (New hf [Replicas R]) ms h == mem) := by
      apply List.filter_congr
      intro h hh
      rw [hmap h, if_pos hh]
    rw [hcg, ← hm0rep]
    exact filter_owner_length ms (New hf [Replicas R]) hcol hms mem hm
  · intro hne key
    have hpos : 0 < (addSeq (New hf [Replicas R]) ms).keys.length := by
      rw [hlen]
      exact Nat.mul_pos (List.length_pos.mpr hne) hR
    have hlen0 : (addSeq (New hf [Replicas R]) ms).keys.length ≠ 0 :=
      Nat.pos_iff_ne_zero.mp hpos
    have hidx : (search (addSeq (New hf [Replicas R]) ms).keys
        ((addSeq (New hf [Replicas R]) ms).hash key))
        % (addSeq (New hf [Replicas R]) ms).keys.length
        < (addSeq (New hf [Replicas R]) ms).keys.length := Nat.mod_lt _ hpos
    have hmem := getD_mem _ _ hidx
    have hmemall := hp2.mem_iff.mp hmem
    simp only [Map.Get, hlen0, if_false]
    rw [hmap _, if_pos hmemall]
    exact (ownerOf_mem (New hf [Replicas R]) ms _ hmemall).1

end consistenthash

/-! Theorems about the cache group. -/

namespace lc_cache

/-- `getLocally` errs exactly when the cache misses and the loader reports
not found, and its only error is `"data not found"`. -/
theorem getLocally_err (g : Group) (w : World) (now : Nat) (key : String) :
    (isErr (g.getLocally w now key).1 = true ↔
      (g.mainCache.get key now = none ∧ (g.getter key).2.1 = false)) ∧
    (∀ e, (g.getLocally w now key).1 = .error e → e = "data not found") := by
  unfold Group.getLocally
  cases hc : g.mainCache.get key now with
  | some v => simp [isErr, hc]
  | none =>
    cases hf : (g.getter key).2.1 with
    | false => simp [isErr, hf]
    | true =>
      by_cases he : (g.getter key).2.2 ≠ 0 <;> simp [isErr, hf, he]

/-- `load` errs exactly when remote delegation does not succeed and the
local path fails, and its only error is `"data not found"`. -/
theorem load_err (g : Group) (w : World) (now : Nat) (key : String) :
    (isErr (g.load w now key).1 = true ↔
      (¬ remoteOk g key ∧ g.mainCache.get key now = none ∧
        (g.getter key).2.1 = false)) ∧
    (∀ e, (g.load w now key).1 = .error e → e = "data not found") := by
  unfold Group.load singleflightDo
  cases hp : g.peers with
  | none =>
    have hro : ¬ remoteOk g key := by simp [remoteOk, hp]
    simpa [hro] using getLocally_err g w now key
  | some picker =>
    cases hok : (picker.PickPeer key).2.1 with
    | false =>
      have hro : ¬ remoteOk g key := by simp [remoteOk, hp, hok]
      simpa [hok, hro] using getLocally_err g w now key
    | true =>
      cases hself : (picker.PickPeer key).2.2 with
      | true =>
        have hro : ¬ remoteOk g key := by simp [remoteOk, hp, hself]
        cases hc : g.mainCache.get key now with
        | some v => simp [hok, hself, hc, isErr]
        | none =>
          have h := getLocally_err g w now key
          rw [hc] at h
          simpa [hok, hself, hc, hro] using h
      | false =>
        cases hpe : ((picker.PickPeer key).1.Get g.name key).2 with
        | none =>
          have hro : remoteOk g key := by simp [remoteOk, hp, hok, hself, hpe]
          simp [hok, hself, Group.getFromPeer, hpe, isErr, hro]
        | some e0 =>
          have hro : ¬ remoteOk g key := by simp [remoteOk, hp, hpe]
          simpa [hok, hself, Group.getFromPeer, hpe, hro]
            using getLocally_err g w now key

end lc_cache

namespace lc_cache

/-- Claim C2 — `Get` fails exactly when the key is empty or the path that
reaches the loader finds no value while remote delegation (if any) did not
succeed; the surfaced error is always the `InvalidKey` or `NotFound`
message, never a peer error. -/
theorem get_error_iff (g : Group) (w : World) (now : Nat) (key : String) :
    (isErr (g.Get w now key).1 = true ↔
      (key = "" ∨ (¬ remoteOk g key ∧ g.mainCache.get key now = none ∧
        (g.getter key).2.1 = false))) ∧
    (∀ e, (g.Get w now key).1 = .error e →
      e = "key is required" ∨ e = "data not found") := by
  unfold Group.Get
  by_cases hk : key = ""
  · simp [hk, isErr]
  · rw [if_neg hk]
    constructor
    · rw [(load_err g w now key).1]
      simp [hk]
    · intro e he
      exact Or.inr ((load_err g w now key).2 e he)

theorem get_error_iff_witness : isErr (gEx2.Get wEx2 0 "").1 = true :=
  (get_error_iff gEx2 wEx2 0 "").1.mpr (Or.inl rfl)

/-- Claim C3 — `Delete` on the empty key reports removed `= true` together
with the `InvalidKey` error, and leaves the group (hence the local store)
unchanged. -/
theorem delete_empty_key (g : Group) :
    g.Delete "" = ((true, some "key is required"), g) := rfl

/-- Claim C10 — when the picker reports that no peer set can be determined
(`ok = false`), `Get` produces the same result, the same cache state and
the same heap as with no picker configured at all. -/
theorem get_no_peerset (g : Group) (picker : PeerPicker) (w : World) (now : Nat)
    (key : String) (hk : key ≠ "") (hok : (picker.PickPeer key).2.1 = false) :
    (({ g with peers := some picker } : Group).Get w now key).1
      = (({ g with peers := none } : Group).Get w now key).1 ∧
    (({ g with peers := some picker } : Group).Get w now key).2.1.mainCache
      = (({ g with peers := none } : Group).Get w now key).2.1.mainCache ∧
    (({ g with peers := some picker } : Group).Get w now key).2.2
      = (({ g with peers := none } : Group).Get w now key).2.2 := by
  unfold Group.Get Group.load singleflightDo
  rw [if_neg hk, if_neg hk]
  simp only [hok, Bool.false_eq_true, if_false]
  unfold Group.getLocally
  cases hc : g.mainCache.get key now with
  | some v => exact ⟨rfl, rfl, rfl⟩
  | none =>
    cases hf : (g.getter key).2.1 with
    | false => simp [hf]
    | true => by_cases he : (g.getter key).2.2 ≠ 0 <;> simp [hf, he]

theorem get_no_peerset_witness :
    (({ gEx10 with peers := some pickerEx10 } : Group).Get wEx10 0 "k").1
      = (({ gEx10 with peers := none } : Group).Get wEx10 0 "k").1 :=
  (get_no_peerset gEx10 pickerEx10 wEx10 0 "k" (by decide) rfl).1

end lc_cache

namespace lc_cache

theorem lookup_add (c : cache) (key : String) (v : ByteView) :
    (c.add key v).lookup key = some (v, none) := by
  simp [cache.add, cache.lookup, List.find?_cons_of_pos]

theorem lookup_addWithExpiration (c : cache) (key : String) (v : ByteView) (t : Nat) :
    (c.addWithExpiration key v t).lookup key = some (v, some t) := by
  simp [cache.addWithExpiration, cache.lookup, List.find?_cons_of_pos]

/-- Claim C7 — a local load that reaches the loader and finds a value
returns a fresh clone of the loader bytes, stores it under the key with
the supplied expiration exactly when that expiration is non-zero, and the
cached content survives any later in-place mutation of the loader buffer. -/
theorem getLocally_spec (g : Group) (w : World) (now : Nat) (key : String)
    (bytes : Nat) (exp : Nat)
    (hmiss : g.mainCache.get key now = none)
    (hload : g.getter key = (bytes, true, exp))
    (hlive : bytes ≠ w.next) :
    (g.getLocally w now key).1 = .ok ⟨w.next⟩ ∧
    (g.getLocally w now key).2.2.heap w.next = w.heap bytes ∧
    (g.getLocally w now key).2.1.mainCache.lookup key
      = some (⟨w.next⟩, if exp = 0 then none else some exp) ∧
    (∀ data : List Nat,
      heapWrite (g.getLocally w now key).2.2.heap bytes data w.next
        = w.heap bytes) := by
  have hnext : w.next ≠ bytes := fun h => hlive h.symm
  unfold Group.getLocally
  rw [hmiss, hload]
  by_cases he : exp = 0
  · subst he
    simp [cloneBytes, lookup_add, heapWrite, hnext]
  · simp [he, cloneBytes, lookup_addWithExpiration, heapWrite, hnext]

theorem getLocally_spec_witness :
    (gEx7.getLocally wEx7 0 "k").1 = .ok ⟨1⟩ ∧
    (gEx7.getLocally wEx7 0 "k").2.2.heap 1 = wEx7.heap 0 :=
  ⟨(getLocally_spec gEx7 wEx7 0 "k" 0 0 rfl rfl (by decide)).1,
   (getLocally_spec gEx7 wEx7 0 "k" 0 0 rfl rfl (by decide)).2.1⟩

/-- Claim C8, amended — `Delete` on a non-empty key: no picker deletes
locally; an unresolvable owner yields `(false, nil)`; self deletes
locally; a remote owner receives the remote delete with no local mutation,
and its error is propagated as-is, but the removed flag is propagated only
when the error is nil — a non-nil error forces the reported flag to
`false`, discarding the flag the peer returned. -/
theorem delete_spec (g : Group) (key : String) (hk : key ≠ "") :
    (g.peers = none →
      g.Delete key = (((g.mainCache.delete key).1, none),
        { g with mainCache := (g.mainCache.delete key).2 })) ∧
    (∀ picker, g.peers = some picker →
      ((picker.PickPeer key).2.1 = false → g.Delete key = ((false, none), g)) ∧
      ((picker.PickPeer key).2.1 = true → (picker.PickPeer key).2.2 = true →
        g.Delete key = (((g.mainCache.delete key).1, none),
          { g with mainCache := (g.mainCache.delete key).2 })) ∧
      ((picker.PickPeer key).2.1 = true → (picker.PickPeer key).2.2 = false →
        ∀ s : Bool,
          ((picker.PickPeer key).1.Delete g.name key = (s, none) →
            g.Delete key = ((s, none), g)) ∧
          (∀ e, (picker.PickPeer key).1.Delete g.name key = (s, some e) →
            g.Delete key = ((false, some e), g)))) := by
  unfold Group.Delete
  rw [if_neg hk]
  refine ⟨?_, ?_⟩
  · intro hp
    rw [hp]
  · intro picker hp
    rw [hp]
    refine ⟨?_, ?_, ?_⟩
    · intro hok
      simp [hok]
    · intro hok hself
      simp [hok, hself]
    · intro hok hself s
      constructor
      · intro hpd
        simp [hok, hself, Group.deleteFromPeer, hpd]
      · intro e hpd
        simp [hok, hself, Group.deleteFromPeer, hpd]

theorem delete_spec_witness :
    gEx8.Delete "k" = ((false, some "peer down"), gEx8) :=
  ((((delete_spec gEx8 "k" (by decide)).2 pickerEx8 rfl).2.2 rfl rfl true).2
    "peer down" rfl)

/-- Counterexample to claim C8 as stated: the remote delete returns the
pair `(true, error)`, but `Delete` reports `(false, error)` — the removed
flag of the peer is not propagated as-is. -/
theorem delete_propagate_cex :
    (gEx8.Delete "k").1 = (false, some "peer down") ∧
    (pickerEx8.PickPeer "k").1.Delete gEx8.name "k" = (true, some "peer down") ∧
    (gEx8.Delete "k").1 ≠ (pickerEx8.PickPeer "k").1.Delete gEx8.name "k" :=
  ⟨rfl, rfl, by decide⟩

/-- Claim C9 — a nil loader makes `NewGroup` panic before touching the
registry; a group is created with no picker; registering a picker succeeds
only when none is set and a second registration panics: the picker is set
at most once in every reachable group state. -/
theorem register_peers_once (gs : Registry) (name : String) (cb : Int)
    (g : Group) (p p2 : PeerPicker) :
    NewGroup gs name cb none = (none, gs) ∧
    (∀ f g2 gs2, NewGroup gs name cb (some f) = (some g2, gs2) → g2.peers = none) ∧
    (g.peers = none → ∃ g2, g.RegisterPeers p = some g2 ∧ g2.peers = some p ∧
      g2.RegisterPeers p2 = none) ∧
    (g.peers ≠ none → g.RegisterPeers p = none) := by
  refine ⟨rfl, ?_, ?_, ?_⟩
  · intro f g2 gs2 h
    have h1 := congrArg Prod.fst h
    obtain rfl := Option.some.inj h1
    rfl
  · intro hp
    refine ⟨{ g with peers := some p }, ?_, rfl, rfl⟩
    simp [Group.RegisterPeers, hp]
  · intro hp
    cases hg : g.peers with
    | none => exact absurd hg hp
    | some q => simp [Group.RegisterPeers, hg]

theorem register_peers_once_witness :
    NewGroup gsEx9 "n" 5 none = (none, gsEx9) ∧
    (gEx9.RegisterPeers pickerEx9).isSome = true := by
  refine ⟨(register_peers_once gsEx9 "n" 5 gEx9 pickerEx9 pickerEx9).1, ?_⟩
  obtain ⟨g2, h1, -, -⟩ :=
    (register_peers_once gsEx9 "n" 5 gEx9 pickerEx9 pickerEx9).2.2.1 rfl
  rw [h1]
  rfl

end lc_cache

namespace consistenthash

/-- Counterexample to claim C1 as stated: in the reachable ring `[10]`
(member `"a"`, one replica), removing the never-added member `"b"`
computes the absent hash `5` and deletes the unrelated entry `10`, and
removing the never-added member `"c"` computes the absent hash `99`,
searches past the end of the ring and panics. -/
theorem remove_absent_cex :
    (5 ∉ mEx1.keys) ∧ (99 ∉ mEx1.keys) ∧ mEx1.keys = [10] ∧
    (mEx1.Remove "b").map Map.keys = some [] ∧
    (mEx1.Remove "c").isNone = true := by decide

theorem remove_step_behavior_witness :
    removeIter (some mEx1b) 4 =
      some { mEx1b with keys := mEx1b.keys.erase 4,
                        hashMap := fun h => if h = 4 then "" else mEx1b.hashMap h } :=
  (remove_step_behavior mEx1b 4 (by decide)).1 (by decide)

theorem ring_get_spec_witness : mEx4.Get "ka" = mEx4.hashMap 7 :=
  ((ring_get_spec mEx4 "ka" (by decide)).2.1 7 (by decide)).1

theorem add_remove_roundtrip_witness :
    (vhashes mEx5 "x").Nodup ∧ (mEx5.Add ["x"]).Remove "x" = some mEx5 :=
  ⟨by decide, add_remove_roundtrip mEx5 "x" List.sorted_nil (by decide)
    (by decide) (by decide)⟩

theorem ring_balance_witness :
    (0 < 1) ∧
    (addSeq (New hf6 [Replicas 1]) ["a", "b"]).keys.length = ["a", "b"].length * 1 :=
  ⟨by decide, (ring_balance hf6 1 ["a", "b"] (by decide) (by decide) (by decide)).1⟩

end consistenthash
